import Mathlib

/-!
Verification of the route-offset geometry engine of the Helixx repository
(`backend/mission_handler/mission_handler.py`) against its natural-language
specification.

The Python code is shallowly embedded here:
a shapely `Point` in the planar (UTM) metric plane becomes a pair of
rationals `Pt := ℚ × ℚ` (the Python floats are idealised as exact
arithmetic); where the code compares Euclidean distances
`p.distance(q) OP r` with `r ≥ 0`, the embedding compares squared
distances `dSq p q OP r^2`, which is equivalent because both sides of the
original comparison are nonnegative.  Functions whose *output values*
genuinely contain square roots (the offset-displacement functions
`shift_by_neighbor`, `shift_point`, `_compute_safe_offset`) are embedded
over `ℝ × ℝ` with `Real.sqrt`.  Objects of the external shapely library
(polygon containment/touch predicates) are modelled as record fields of an
abstract polygon value; everything the repository itself computes is
translated directly from its source.
-/

/-- A point of the planar metric (UTM) plane, the embedding of a shapely
`Point(x, y)`. -/
abbrev Pt := ℚ × ℚ

/-- Squared Euclidean distance between two planar points.  The source
compares true distances `p.distance(q)`; comparisons against a nonnegative
threshold `t` are embedded as comparisons of `dSq` against `t^2`. -/
def dSq (p q : Pt) : ℚ := (p.1 - q.1) ^ 2 + (p.2 - q.2) ^ 2

/-- Dot product of two planar vectors (embeds `np.dot`). -/
def dotQ (v w : Pt) : ℚ := v.1 * w.1 + v.2 * w.2

/-- Componentwise difference of two planar points (embeds `np.array` vector
subtraction). -/
def subP (p q : Pt) : Pt := (p.1 - q.1, p.2 - q.2)

/-- Embedding of `interpolate_offset` (mission_handler.py, lines 118-143):
blends a safe-strategy offset and a boundary-strategy offset according to
the stored distance `dist`, with thresholds `tol_down` (default
`TOLERANCE_DOWN = 0.9`) and `tol_up` (default `TOLERANCE_UP = 1.1`). -/
def interpolate_offset (safe_off boundary_off : Pt) (dist : ℚ)
    (tol_down : ℚ := 9/10) (tol_up : ℚ := 11/10) : Pt :=
  if dist ≤ tol_down then safe_off
  else if tol_up ≤ dist then boundary_off
  else
    let ratio := (dist - tol_down) / (tol_up - tol_down)
    (safe_off.1 * (1 - ratio) + boundary_off.1 * ratio,
     safe_off.2 * (1 - ratio) + boundary_off.2 * ratio)

/-- Embedding of `reduce_route` (mission_handler.py, lines 148-166): greedy
single pass keeping a point only if its distance from the last *kept* point
is at least `min_distance_m`.  The source's `pt.distance(reduced[-1]) >=
min_distance_m` is embedded as `min_distance_m ^ 2 ≤ dSq pt last`,
equivalent for the nonnegative spacings the pipeline uses (the function
default is 0.9 m; `MissionManager.run` calls it with 0.95 m). -/
def reduceAux (min_distance_m : ℚ) (last : Pt) : List Pt → List Pt
  | [] => []
  | q :: rest =>
    if min_distance_m ^ 2 ≤ dSq q last then q :: reduceAux min_distance_m q rest
    else reduceAux min_distance_m last rest

/-- Top level of `reduce_route`: an empty route stays empty, otherwise the
first point is always kept and the greedy pass runs over the tail. -/
def reduce_route (route : List Pt) (min_distance_m : ℚ := 9/10) : List Pt :=
  match route with
  | [] => []
  | p :: rest => p :: reduceAux min_distance_m p rest

lemma reduceAux_sublist (d : ℚ) (last : Pt) (l : List Pt) :
    (reduceAux d last l).Sublist l := by
  induction l generalizing last with
  | nil => simp [reduceAux]
  | cons q rest ih =>
    rw [reduceAux]
    split
    · exact (ih q).cons₂ q
    · exact (ih last).cons q

lemma reduceAux_chain (d : ℚ) (last : Pt) (l : List Pt) :
    List.Chain (fun p q => d ^ 2 ≤ dSq q p) last (reduceAux d last l) := by
  induction l generalizing last with
  | nil => simp [reduceAux]
  | cons q rest ih =>
    rw [reduceAux]
    split
    · exact List.Chain.cons (by assumption) (ih q)
    · exact ih last

lemma reduce_route_sublist (route : List Pt) (d : ℚ) :
    (reduce_route route d).Sublist route := by
  match route with
  | [] => simp [reduce_route]
  | p :: rest => exact (reduceAux_sublist d p rest).cons₂ p

/-- C6: `reduce_route` keeps the first point, returns a subsequence of its
input in the original relative order, and every pair of consecutive kept
points is at least `min_distance_m` apart (expressed via squared
distances, equivalently for the nonnegative spacing values used; the
pipeline calls it with 0.95 m).  The greedy keep-iff-far rule itself is the
definition `reduceAux`, from which these properties are proved. -/
theorem reduce_route_spec (route : List Pt) (d : ℚ) :
    (reduce_route route d).head? = route.head? ∧
    (reduce_route route d).Sublist route ∧
    List.Chain' (fun p q => d ^ 2 ≤ dSq q p) (reduce_route route d) := by
  refine ⟨?_, reduce_route_sublist route d, ?_⟩
  · match route with
    | [] => rfl
    | p :: rest => rfl
  · match route with
    | [] => simp [reduce_route]
    | p :: rest => exact reduceAux_chain d p rest

/-- C3: with thresholds `tol_down < tol_up`, `interpolate_offset` returns
exactly the safe offset at `dist = tol_down`, exactly the boundary offset
at `dist = tol_up`, the coordinatewise arithmetic mean at the midpoint, and
the linear interpolation `safe·(1-r) + boundary·r` with
`r = (dist - tol_down)/(tol_up - tol_down)` strictly between the
thresholds. -/
theorem interpolate_offset_spec (s b : Pt) (td tu : ℚ) (h : td < tu) :
    interpolate_offset s b td td tu = s ∧
    interpolate_offset s b tu td tu = b ∧
    interpolate_offset s b ((td + tu) / 2) td tu =
      ((s.1 + b.1) / 2, (s.2 + b.2) / 2) ∧
    ∀ dist : ℚ, td < dist → dist < tu →
      interpolate_offset s b dist td tu =
        (s.1 * (1 - (dist - td) / (tu - td)) + b.1 * ((dist - td) / (tu - td)),
         s.2 * (1 - (dist - td) / (tu - td)) + b.2 * ((dist - td) / (tu - td))) := by
  have htu : tu - td ≠ 0 := by linarith
  refine ⟨?_, ?_, ?_, ?_⟩
  · simp [interpolate_offset]
  · rw [interpolate_offset]
    rw [if_neg (by linarith), if_pos le_rfl]
  · rw [interpolate_offset]
    rw [if_neg (by linarith), if_neg (by linarith)]
    have hr : ((td + tu) / 2 - td) / (tu - td) = 1 / 2 := by
      field_simp
      ring
    rw [hr]
    show (s.1 * (1 - 1/2) + b.1 * (1/2), s.2 * (1 - 1/2) + b.2 * (1/2)) = _
    rw [Prod.mk.injEq]
    constructor <;> ring
  · intro dist h1 h2
    rw [interpolate_offset]
    rw [if_neg (by linarith), if_neg (by linarith)]

/-- Witness for C3 at concrete inputs: thresholds 0 < 2, safe offset (1,1),
boundary offset (3,5). -/
theorem interpolate_offset_spec_witness :
    (0 : ℚ) < 2 ∧
    (interpolate_offset (1,1) (3,5) 0 0 2 = (1,1) ∧
     interpolate_offset (1,1) (3,5) 2 0 2 = (3,5) ∧
     interpolate_offset (1,1) (3,5) ((0 + 2) / 2) 0 2 =
       (((1:ℚ) + 3) / 2, ((1:ℚ) + 5) / 2) ∧
     ∀ dist : ℚ, 0 < dist → dist < 2 →
       interpolate_offset (1,1) (3,5) dist 0 2 =
         ((1:ℚ) * (1 - (dist - 0) / (2 - 0)) + 3 * ((dist - 0) / (2 - 0)),
          (1:ℚ) * (1 - (dist - 0) / (2 - 0)) + 5 * ((dist - 0) / (2 - 0)))) :=
  ⟨by norm_num, interpolate_offset_spec (1,1) (3,5) 0 2 (by norm_num)⟩

/-- Direction vector between two indexed points of a route, `c[b] - c[a]`
(indices are in range at every use site; out-of-range reads default). -/
def dirFrom (c : List Pt) (a b : ℕ) : Pt := subP (c.getD b (0, 0)) (c.getD a (0, 0))

/-- The source computes `angle = degrees(acos(clip(dot/(n1*n2), -1, 1)))`
when both norms are nonzero (otherwise `angle = 0`), and tests
`angle >= 150`.  Since `acos` is strictly decreasing and `cos 150 = -√3/2`,
for nonzero norms the test is equivalent to `dot ≤ -(√3/2)·n1·n2`, i.e. to
`dot ≤ 0 ∧ 4·dot² ≥ 3·n1²·n2²`, which is exact over ℚ (the clip never
changes the comparison because `|dot| ≤ n1·n2` by Cauchy-Schwarz); with a
zero norm the source's `angle = 0` fails the `≥ 150` test, matching the
nonzero-norm conjuncts here. -/
def angleGE150 (v w : Pt) : Prop :=
  dotQ v v ≠ 0 ∧ dotQ w w ≠ 0 ∧ dotQ v w ≤ 0 ∧
    3 * dotQ v v * dotQ w w ≤ 4 * dotQ v w ^ 2

instance (v w : Pt) : Decidable (angleGE150 v w) := by
  unfold angleGE150
  infer_instance

/-- Deletion test of `remove_loops_composite` (mission_handler.py, lines
197-208) at indices `i < j`: the two points are closer than
`distance_threshold = 2.0` (squared-distance form) and the angle between
`c[i]→c[i+1]` and `c[j-1]→c[j]` is at least `angle_threshold = 150`
degrees.  The thresholds are the ones `MissionManager.run` passes. -/
def loopCut (c : List Pt) (i j : ℕ) : Prop :=
  dSq (c.getD i (0, 0)) (c.getD j (0, 0)) < 2 ^ 2 ∧
    angleGE150 (dirFrom c i (i + 1)) (dirFrom c (j - 1) j)

instance (c : List Pt) (i j : ℕ) : Decidable (loopCut c i j) := by
  unfold loopCut
  infer_instance

/-- Inner `while j < len(cleaned)` loop of `remove_loops_composite`, with
`j = i + 2 + k`: on a hit, the points strictly between `i` and `j` are
removed (`cleaned[:i+1] + cleaned[j:]`) and `j` restarts at `i + 2`
(`k = 0`); otherwise `j` advances. -/
def innerLoop (c : List Pt) (i k : ℕ) : List Pt :=
  if h : i + 2 + k < c.length then
    if loopCut c i (i + 2 + k) then
      innerLoop (c.take (i + 1) ++ c.drop (i + 2 + k)) i 0
    else
      innerLoop c i (k + 1)
  else c
termination_by (c.length, c.length - k)
decreasing_by
· simp only [List.length_append, List.length_take, List.length_drop]
  left
  omega
· right
  omega

lemma cut_sublist (c : List Pt) (m n : ℕ) (h : m ≤ n) :
    List.Sublist (c.take m ++ c.drop n) c := by
  conv_rhs => rw [← List.take_append_drop m c]
  refine List.Sublist.append_left ?_ _
  have hd : c.drop n = (c.drop m).drop (n - m) := by
    rw [List.drop_drop]
    congr 1
    omega
  rw [hd]
  exact List.drop_sublist _ _

lemma innerLoop_sublist (c : List Pt) (i k : ℕ) :
    List.Sublist (innerLoop c i k) c := by
  induction c, i, k using innerLoop.induct with
  | case1 c i k h hcut ih =>
    rw [innerLoop, dif_pos h, if_pos hcut]
    exact ih.trans (cut_sublist c (i + 1) (i + 2 + k) (by omega))
  | case2 c i k h hcut ih =>
    rw [innerLoop, dif_pos h, if_neg hcut]
    exact ih
  | case3 c i k h =>
    rw [innerLoop, dif_neg h]

lemma innerLoop_head? (c : List Pt) (i k : ℕ) :
    (innerLoop c i k).head? = c.head? := by
  induction c, i, k using innerLoop.induct with
  | case1 c i k h hcut ih =>
    rw [innerLoop, dif_pos h, if_pos hcut]
    rw [ih]
    match c with
    | [] => simp at h
    | a :: t => simp [List.take_succ_cons]
  | case2 c i k h hcut ih =>
    rw [innerLoop, dif_pos h, if_neg hcut]
    exact ih
  | case3 c i k h =>
    rw [innerLoop, dif_neg h]

lemma getLast?_drop_of_lt (c : List Pt) (n : ℕ) (h : n < c.length) :
    (c.drop n).getLast? = c.getLast? := by
  have hne : c.drop n ≠ [] := by
    rw [ne_eq, List.drop_eq_nil_iff]
    omega
  conv_rhs => rw [← List.take_append_drop n c]
  rw [List.getLast?_append_of_ne_nil _ hne]

lemma innerLoop_getLast? (c : List Pt) (i k : ℕ) :
    (innerLoop c i k).getLast? = c.getLast? := by
  induction c, i, k using innerLoop.induct with
  | case1 c i k h hcut ih =>
    rw [innerLoop, dif_pos h, if_pos hcut]
    rw [ih]
    have hne : c.drop (i + 2 + k) ≠ [] := by
      rw [ne_eq, List.drop_eq_nil_iff]
      omega
    rw [List.getLast?_append_of_ne_nil _ hne]
    exact getLast?_drop_of_lt c _ h
  | case2 c i k h hcut ih =>
    rw [innerLoop, dif_pos h, if_neg hcut]
    exact ih
  | case3 c i k h =>
    rw [innerLoop, dif_neg h]

/-- Outer `while i < len(cleaned) - 2` loop of `remove_loops_composite`;
the length is re-read from the current (possibly shortened) list each
iteration, as in the source. -/
def outerLoop (c : List Pt) (i : ℕ) : List Pt :=
  if i < c.length - 2 then outerLoop (innerLoop c i 0) (i + 1) else c
termination_by c.length - i
decreasing_by
  have hl := (innerLoop_sublist c i 0).length_le
  omega

lemma outerLoop_sublist (c : List Pt) (i : ℕ) :
    List.Sublist (outerLoop c i) c := by
  induction c, i using outerLoop.induct with
  | case1 c i h ih =>
    rw [outerLoop, if_pos h]
    exact ih.trans (innerLoop_sublist c i 0)
  | case2 c i h =>
    rw [outerLoop, if_neg h]

lemma outerLoop_head? (c : List Pt) (i : ℕ) :
    (outerLoop c i).head? = c.head? := by
  induction c, i using outerLoop.induct with
  | case1 c i h ih =>
    rw [outerLoop, if_pos h]
    rw [ih, innerLoop_head?]
  | case2 c i h =>
    rw [outerLoop, if_neg h]

lemma outerLoop_getLast? (c : List Pt) (i : ℕ) :
    (outerLoop c i).getLast? = c.getLast? := by
  induction c, i using outerLoop.induct with
  | case1 c i h ih =>
    rw [outerLoop, if_pos h]
    rw [ih, innerLoop_getLast?]
  | case2 c i h =>
    rw [outerLoop, if_neg h]

/-- Embedding of `remove_loops_composite` (mission_handler.py, lines
171-214) at the thresholds used by the pipeline
(`distance_threshold = 2.0` m, `angle_threshold = 150` degrees): an O(n²)
scan that, whenever point `j ≥ i + 2` returns close to point `i` with
near-reversed direction, deletes all points strictly between them and
re-scans from the same `i`. -/
def remove_loops_composite (route : List Pt) : List Pt :=
  if route.isEmpty then [] else outerLoop route 0

lemma remove_loops_composite_sublist (route : List Pt) :
    List.Sublist (remove_loops_composite route) route := by
  match route with
  | [] => simp [remove_loops_composite]
  | a :: t =>
    rw [remove_loops_composite]
    simp only [List.isEmpty_cons, if_neg Bool.false_ne_true]
    exact outerLoop_sublist _ 0

/-- C10: `remove_loops_composite` returns a subsequence of its input (so no
point is inserted or reordered), always retains the first and the last
point, and yields a non-empty output exactly on non-empty input. -/
theorem remove_loops_composite_structure (route : List Pt) :
    List.Sublist (remove_loops_composite route) route ∧
    (remove_loops_composite route).head? = route.head? ∧
    (remove_loops_composite route).getLast? = route.getLast? ∧
    (remove_loops_composite route = [] ↔ route = []) := by
  match route with
  | [] => simp [remove_loops_composite]
  | a :: t =>
    rw [remove_loops_composite]
    simp only [List.isEmpty_cons, if_neg Bool.false_ne_true]
    refine ⟨outerLoop_sublist _ 0, outerLoop_head? _ 0, outerLoop_getLast? _ 0, ?_⟩
    constructor
    · intro he
      have := outerLoop_head? (a :: t) 0
      rw [he] at this
      simp at this
    · intro he
      exact absurd he (List.cons_ne_nil a t)

lemma remove_loops_example_eval :
    remove_loops_composite
        [((0:ℚ), (0:ℚ)), (0, 10), (0, 20), (0, 10001/1000), (0, 1/1000)] =
      [(0, 0), (0, 1/1000)] := by
  rw [remove_loops_composite]
  rw [if_neg (by simp)]
  rw [outerLoop, if_pos (by norm_num)]
  have e1 : innerLoop [((0:ℚ), (0:ℚ)), (0, 10), (0, 20), (0, 10001/1000), (0, 1/1000)] 0 0
      = [(0, 0), (0, 1/1000)] := by
    rw [innerLoop, dif_pos (by norm_num),
        if_neg (by norm_num [loopCut, angleGE150, dirFrom, dSq, dotQ, subP, List.getD])]
    rw [innerLoop, dif_pos (by norm_num),
        if_neg (by norm_num [loopCut, angleGE150, dirFrom, dSq, dotQ, subP, List.getD])]
    rw [innerLoop, dif_pos (by norm_num),
        if_pos (by norm_num [loopCut, angleGE150, dirFrom, dSq, dotQ, subP, List.getD])]
    norm_num
    rw [innerLoop, dif_neg (by norm_num)]
  rw [e1]
  rw [outerLoop, if_neg (by norm_num)]

/-- C1 counterexample: on the five-point route
`[(0,0),(0,10),(0,20),(0,10.001),(0,0.001)]` with the thresholds 2.0 m and
150 degrees, `remove_loops_composite` does NOT return three points: at
`i = 0, j = 4` the endpoints are 0.001 m apart with reversed direction
(angle 180 degrees), so the scan deletes everything strictly between them
and returns the two points `[(0,0),(0,0.001)]`. -/
theorem remove_loops_example_counterexample :
    (remove_loops_composite
        [((0:ℚ), (0:ℚ)), (0, 10), (0, 20), (0, 10001/1000), (0, 1/1000)]).length ≠ 3 := by
  rw [remove_loops_example_eval]
  norm_num

/-- C1 amended: the five-point route `[(0,0),(0,10),(0,20),(0,10.001),
(0,0.001)]` with `distance_threshold = 2.0` and `angle_threshold = 150`
collapses to the two points `[(0,0),(0,0.001)]` (the deletion at
`i = 0, j = 4` fires before the inner loop formed by the middle points is
considered, removing `(0,10)` as well). -/
theorem remove_loops_example_amended :
    remove_loops_composite
        [((0:ℚ), (0:ℚ)), (0, 10), (0, 20), (0, 10001/1000), (0, 1/1000)] =
      [(0, 0), (0, 1/1000)] :=
  remove_loops_example_eval

/-- Average of one coordinate window used by `smooth_route`: the window of
indices `j` with `max 0 (i - half) ≤ j < min len (i + half + 1)`. -/
def smoothAt (route : List Pt) (window_size : ℕ) (i : ℕ) : Pt :=
  let half := window_size / 2
  let lo := i - half
  let hi := min route.length (i + half + 1)
  let window := (route.drop lo).take (hi - lo)
  ((window.map Prod.fst).sum / (window.length : ℚ),
   (window.map Prod.snd).sum / (window.length : ℚ))

/-- Embedding of `smooth_route` (mission_handler.py, lines 219-241):
centered moving average with window `window_size` (the pipeline uses 5),
shrinking at the sequence edges; an empty route or a window below 2 is
returned unchanged.  One output point is produced per input point. -/
def smooth_route (route : List Pt) (window_size : ℕ := 5) : List Pt :=
  if route.isEmpty || window_size < 2 then route
  else (List.range route.length).map (smoothAt route window_size)

lemma smooth_route_length (route : List Pt) (w : ℕ) :
    (smooth_route route w).length = route.length := by
  rw [smooth_route]
  split
  · rfl
  · rw [List.length_map, List.length_range]

/-- C8: downstream of the offset stage the route can only shrink:
`reduce_route` and `remove_loops_composite` return sublists of their input
(hence no longer than it), `smooth_route` returns exactly one point per
input point, and the composition applied after the offset stage therefore
has at most as many points as the discretized route it started from. -/
theorem pipeline_no_insertion (route : List Pt) (d : ℚ) (w : ℕ) :
    (reduce_route route d).length ≤ route.length ∧
    (remove_loops_composite route).length ≤ route.length ∧
    (smooth_route route w).length = route.length ∧
    (smooth_route (remove_loops_composite (reduce_route route d)) w).length ≤
      route.length := by
  refine ⟨(reduce_route_sublist route d).length_le,
          (remove_loops_composite_sublist route).length_le,
          smooth_route_length route w, ?_⟩
  rw [smooth_route_length]
  exact le_trans
    (remove_loops_composite_sublist (reduce_route route d)).length_le
    (reduce_route_sublist route d).length_le

/-- Classification label of a discretized sample ("safe" / "boundary"). -/
inductive Label where
  | safe
  | boundary
deriving DecidableEq

/-- Per-sample rule of `MissionManager._classify_points` (mission_handler.py,
lines 487-492), exactly as the source writes it: distance below
`TOLERANCE_DOWN = 0.9` gives "safe", above `TOLERANCE_UP = 1.1` gives
"boundary", otherwise the previously appended label `labels[i-1]` is reused
(`"safe"` when `i = 0`).  The list read is in range at every use site
because `i = len(labels)` there. -/
def hystLabel (labels : List Label) (i : ℕ) (d : ℚ) : Label :=
  if d < 9/10 then Label.safe
  else if 11/10 < d then Label.boundary
  else if 0 < i then labels.getD (i - 1) Label.safe else Label.safe

/-- One iteration of the classification loop: append the label of the
current sample, whose index `i` equals the number of labels so far. -/
def classifyStep (labels : List Label) (d : ℚ) : List Label :=
  labels ++ [hystLabel labels labels.length d]

/-- The label sequence `_classify_points` computes from the sequence of
sample distances to the uncorrected original centerline. -/
def classifyPoints (ds : List ℚ) : List Label := ds.foldl classifyStep []

/-- Modelled from the spec: the deterministic two-state transition
`state ∈ {safe, boundary}` of the hysteresis classifier — switch to "safe"
below 0.9 m, to "boundary" above 1.1 m, keep the state in between. -/
def specTransition (s : Label) (d : ℚ) : Label :=
  if d < 9/10 then Label.safe else if 11/10 < d then Label.boundary else s

/-- Run of the spec's two-state machine from state `s`, emitting the state
after each sample. -/
def runMachine (s : Label) : List ℚ → List Label
  | [] => []
  | d :: rest => specTransition s d :: runMachine (specTransition s d) rest

lemma hystLabel_eq_specTransition (acc : List Label) (d : ℚ) :
    hystLabel acc acc.length d = specTransition (acc.getLast?.getD Label.safe) d := by
  match acc with
  | [] => rfl
  | a :: t =>
    rw [hystLabel, specTransition]
    have hlen : (a :: t).length - 1 = (a :: t).length - 1 := rfl
    have hget : (a :: t).getD ((a :: t).length - 1) Label.safe =
        (a :: t).getLast?.getD Label.safe := by
      rw [List.getD_eq_getElem?_getD, List.getLast?_eq_getElem?]
    split
    · rfl
    · split
      · rfl
      · rw [if_pos (by simp), hget]

lemma classify_foldl (ds : List ℚ) :
    ∀ acc : List Label,
      ds.foldl classifyStep acc = acc ++ runMachine (acc.getLast?.getD Label.safe) ds := by
  induction ds with
  | nil => intro acc; simp [runMachine]
  | cons d rest ih =>
    intro acc
    have hstep : classifyStep acc d =
        acc ++ [specTransition (acc.getLast?.getD Label.safe) d] := by
      rw [classifyStep, hystLabel_eq_specTransition]
    calc (d :: rest).foldl classifyStep acc
        = rest.foldl classifyStep (classifyStep acc d) := rfl
      _ = classifyStep acc d ++
            runMachine ((classifyStep acc d).getLast?.getD Label.safe) rest := ih _
      _ = acc ++ runMachine (acc.getLast?.getD Label.safe) (d :: rest) := by
          rw [hstep, List.getLast?_concat, runMachine]
          simp

lemma runMachine_length (s : Label) (ds : List ℚ) :
    (runMachine s ds).length = ds.length := by
  induction ds generalizing s with
  | nil => rfl
  | cons d rest ih => rw [runMachine]; simp [ih]

lemma runMachine_getD_succ (ds : List ℚ) :
    ∀ (s : Label) (i : ℕ), i + 1 < ds.length →
      (runMachine s ds).getD (i + 1) Label.safe =
        specTransition ((runMachine s ds).getD i Label.safe) (ds.getD (i + 1) 0) := by
  induction ds with
  | nil => intro s i h; simp at h
  | cons d rest ih =>
    intro s i h
    match i with
    | 0 =>
      match rest with
      | [] => simp at h
      | e :: rest' => rfl
    | n + 1 =>
      have h' : n + 1 < rest.length := by simpa using h
      rw [runMachine]
      have g1 : ∀ (x : Label) (l : List Label) (m : ℕ),
          (x :: l).getD (m + 1) Label.safe = l.getD m Label.safe := by
        intro x l m; simp [List.getD]
      rw [g1, g1]
      have g2 : (d :: rest).getD (n + 1 + 1) 0 = rest.getD (n + 1) 0 := by
        simp [List.getD]
      rw [g2]
      exact ih (specTransition s d) n h'

lemma specTransition_change (s : Label) (d : ℚ) (h : specTransition s d ≠ s) :
    d < 9/10 ∨ 11/10 < d := by
  rw [specTransition] at h
  by_cases h1 : d < 9/10
  · exact Or.inl h1
  · by_cases h2 : 11/10 < d
    · exact Or.inr h2
    · rw [if_neg h1, if_neg h2] at h
      exact absurd rfl h

/-- C4: the classification loop of `_classify_points` is exactly the run of
the deterministic two-state hysteresis machine seeded with "safe"
(distance below 0.9 m forces "safe", above 1.1 m forces "boundary",
anything in between keeps the previous label), and consequently the label
can change from one sample to the next only when the new sample's distance
crosses a threshold. -/
theorem classify_points_state_machine (ds : List ℚ) :
    classifyPoints ds = runMachine Label.safe ds ∧
    (∀ i, i + 1 < ds.length →
      (classifyPoints ds).getD (i + 1) Label.safe ≠
        (classifyPoints ds).getD i Label.safe →
      (ds.getD (i + 1) 0 < 9/10 ∨ 11/10 < ds.getD (i + 1) 0)) := by
  have hm : classifyPoints ds = runMachine Label.safe ds := by
    rw [classifyPoints, classify_foldl ds []]
    rfl
  refine ⟨hm, ?_⟩
  intro i hi hne
  rw [hm, runMachine_getD_succ ds Label.safe i hi] at hne
  exact specTransition_change _ _ hne

/-- Witness for C4: on the distance sequence `[2, 1/2]` the labels are
`[boundary, safe]`; the change at index 1 is indeed licensed by a
threshold crossing (`1/2 < 9/10`). -/
theorem classify_points_state_machine_witness :
    (0 + 1 < ([2, 1/2] : List ℚ).length ∧
     (classifyPoints [2, 1/2]).getD 1 Label.safe ≠
       (classifyPoints [2, 1/2]).getD 0 Label.safe) ∧
    (([2, 1/2] : List ℚ).getD 1 0 < 9/10 ∨ 11/10 < ([2, 1/2] : List ℚ).getD 1 0) := by
  have h1 : 0 + 1 < ([2, 1/2] : List ℚ).length := by norm_num
  have h2 : (classifyPoints [2, 1/2]).getD 1 Label.safe ≠
      (classifyPoints [2, 1/2]).getD 0 Label.safe := by
    norm_num [classifyPoints, classifyStep, hystLabel, List.getD]
    intro hcon
    exact Label.noConfusion hcon
  exact ⟨⟨h1, h2⟩, (classify_points_state_machine [2, 1/2]).2 0 h1 h2⟩

/-- An original route waypoint `{lat, lng, altitude}` of the mission
descriptor. -/
abbrev RouteVertex := ℚ × ℚ × ℚ

/-- The mission payload `from_server` receives (app.py obtains it from the
mediator): each required key is `some` when present in the JSON object and
`none` when missing.  Payload contents are carried so that emptiness of
the route or of the polygon set is visible to the validation step. -/
structure MissionPayload where
  droneData : Option (ℚ × ℚ)
  routePoints : Option (List RouteVertex)
  savedPolygons : Option (List (List (ℚ × ℚ)))

/-- Embedding of the only pre-geometry validation of the pipeline,
`MissionManager.from_server` (mission_handler.py, lines 382-384):
`required = {"droneData", "routePoints", "savedPolygons"}` must be a
subset of the response keys, otherwise a `ValueError` is raised.  Nothing
else about the payload is inspected before geometry starts. -/
def from_server_check (d : MissionPayload) : Bool :=
  d.droneData.isSome && d.routePoints.isSome && d.savedPolygons.isSome

/-- The JSON `offset` field of a `/compute-route` request as seen by
`app.compute_route` (app.py, lines 29-33): absent, a numeric value, or a
value `float()` rejects. -/
inductive OffsetField where
  | absent
  | numeric (q : ℚ)
  | nonNumeric
deriving DecidableEq

/-- Embedding of the offset validation in `app.compute_route`:
`float(data.get('offset', 3.0))` inside `try/except`, answering 400
"Bad offset" (modelled as `none`) before `MissionManager.adjust_route`
is ever called. -/
def parse_offset (f : OffsetField) : Option ℚ :=
  match f with
  | OffsetField.absent => some 3
  | OffsetField.numeric q => some q
  | OffsetField.nonNumeric => none

/-- C2 counterexample: a payload whose three required keys are present but
whose route and polygon set are both EMPTY passes every pre-geometry
validation the pipeline has (the key-subset check of `from_server` and the
offset parse of `compute_route`), so no input-validation error is raised
for an empty route or an empty polygon set — those inputs only fail later,
inside the geometry stages. -/
theorem input_validation_counterexample :
    from_server_check
        { droneData := some (0, 0), routePoints := some [], savedPolygons := some [] } = true ∧
    parse_offset (OffsetField.numeric 3) = some 3 := by
  constructor
  · rfl
  · rfl

/-- C2 amended: before any geometry work the pipeline fails fast exactly on
missing required mission fields (`from_server` checks only that the keys
`droneData`, `routePoints`, `savedPolygons` are present) and on a
non-numeric offset (rejected by `compute_route` before the route is
computed); an empty route or an empty polygon set is NOT validated upfront
and proceeds into the geometry stages. -/
theorem input_validation_amended (d : MissionPayload) :
    (from_server_check d = true ↔
      d.droneData.isSome = true ∧ d.routePoints.isSome = true ∧
        d.savedPolygons.isSome = true) ∧
    parse_offset OffsetField.nonNumeric = none ∧
    parse_offset OffsetField.absent = some 3 ∧
    (∀ q : ℚ, parse_offset (OffsetField.numeric q) = some q) ∧
    from_server_check
        { droneData := some (0, 0), routePoints := some [], savedPolygons := some [] } = true := by
  refine ⟨?_, rfl, rfl, fun q => rfl, rfl⟩
  rw [from_server_check]
  simp [Bool.and_assoc]

/-- Timestamps (in whole seconds from the run's start instant) that
`MissionManager._save_map` (mission_handler.py, lines 865-879) embeds in
the saved map artifact: `start = datetime.utcnow()` read from the wall
clock at save time, then one feature per route point at 2-second steps.
The clock reading is modelled as the explicit input `start`. -/
def save_map_times (start : ℕ) (route : List (ℚ × ℚ)) : List ℕ :=
  (List.range route.length).map (fun i => start + 2 * i)

/-- C9 counterexample: the saved map artifact is not byte-identical across
two runs on identical mission input, because `_save_map` stamps each
feature with the current UTC time: the same one-point route saved at
clock reading 0 and at clock reading 2 produces different feature
timestamps. -/
theorem determinism_counterexample :
    save_map_times 0 [(0, 0)] ≠ save_map_times 2 [(0, 0)] := by
  rw [save_map_times, save_map_times]
  simp

/-- C9 amended: no step of the pipeline uses randomness — the computation
is a pure function of the mission input, the configuration and the
wall-clock reading taken in `_save_map` — but the map artifact embeds that
clock reading, so two runs produce identical feature timestamps exactly
when their clock readings coincide (or the route is empty); byte-identical
output across repeated runs is therefore not guaranteed for the map. -/
theorem determinism_amended (s1 s2 : ℕ) (route : List (ℚ × ℚ)) :
    save_map_times s1 route = save_map_times s2 route ↔ s1 = s2 ∨ route = [] := by
  constructor
  · intro h
    match route with
    | [] => exact Or.inr rfl
    | p :: rest =>
      left
      rw [save_map_times, save_map_times] at h
      have h0 := congrArg (fun l => l.getD 0 0) h
      simpa [List.range_succ_eq_map] using h0
  · intro h
    rcases h with h | h
    · rw [h]
    · rw [h]
      rfl

/-- Real-plane point: used for the offset-displacement functions whose
output values genuinely contain square roots. -/
abbrev PtR := ℝ × ℝ

/-- Euclidean norm of a real plane vector (embeds `np.linalg.norm`). -/
noncomputable def normR (v : PtR) : ℝ := Real.sqrt (v.1 ^ 2 + v.2 ^ 2)

/-- Squared Euclidean distance on the real plane. -/
noncomputable def dSqR (p q : PtR) : ℝ := (p.1 - q.1) ^ 2 + (p.2 - q.2) ^ 2

/-- A shapely polygon as the boundary-shift functions see it: its exterior
ring vertices plus the library's containment and touch predicates,
abstracted as record fields (the repository calls them through
`poly.contains`, `poly.touches` and iterates `poly.exterior`). -/
structure ShapelyPolygon where
  ring : List PtR
  containsB : PtR → Bool
  touchesB : PtR → Bool

/-- Embedding of `is_valid` (mission_handler.py, lines 246-257): a point is
valid against a polygon iff the polygon neither contains it nor touches
it. -/
def is_valid (pt : PtR) (poly : ShapelyPolygon) : Bool :=
  !poly.containsB pt && !poly.touchesB pt

open Classical in
/-- Embedding of `shift_by_neighbor` (mission_handler.py, lines 259-310):
displace a point of a boundary segment along one of the two perpendiculars
to the bisector of its cyclic-neighbor edges, keeping the first displaced
candidate that is valid against the polygon and the original point when
neither is.  Python's `(idx - 1) % n` on a nonnegative `idx` and positive
`n` is `Int.emod`, and `norm == 0` guards are exact over the real
idealisation. -/
noncomputable def shift_by_neighbor (point : PtR) (idx : ℕ) (points : List PtR)
    (poly : ShapelyPolygon) (base_offset : ℝ) : PtR :=
  let n := points.length
  if n < 2 then point
  else
    let neighbor_prev := points.getD (((idx : ℤ) - 1).emod n).toNat (0, 0)
    let neighbor_next := points.getD ((idx + 1) % n) (0, 0)
    let v1 : PtR := (neighbor_next.1 - point.1, neighbor_next.2 - point.2)
    let v2 : PtR := (point.1 - neighbor_prev.1, point.2 - neighbor_prev.2)
    if normR v1 = 0 ∨ normR v2 = 0 then point
    else
      let v1u : PtR := (v1.1 / normR v1, v1.2 / normR v1)
      let v2u : PtR := (v2.1 / normR v2, v2.2 / normR v2)
      let bis0 : PtR := (v1u.1 + v2u.1, v1u.2 + v2u.2)
      let bis : PtR :=
        if normR bis0 = 0 then (-v1u.2, v1u.1)
        else (bis0.1 / normR bis0, bis0.2 / normR bis0)
      let perp1 : PtR := (-bis.2, bis.1)
      let perp2 : PtR := (bis.2, -bis.1)
      let c1 : PtR := (point.1 + base_offset * perp1.1, point.2 + base_offset * perp1.2)
      let c2 : PtR := (point.1 + base_offset * perp2.1, point.2 + base_offset * perp2.2)
      if is_valid c1 poly then c1
      else if is_valid c2 poly then c2
      else point

open Classical in
/-- Nearest point of a segment `[a, b]` to `p` on the real plane (the
degenerate segment answers its endpoint). -/
noncomputable def segProjR (p a b : PtR) : PtR :=
  if a = b then a
  else
    let ab : PtR := (b.1 - a.1, b.2 - a.2)
    let t0 := ((p.1 - a.1) * ab.1 + (p.2 - a.2) * ab.2) / (ab.1 ^ 2 + ab.2 ^ 2)
    let t := max 0 (min 1 t0)
    (a.1 + t * ab.1, a.2 + t * ab.2)

open Classical in
/-- Modelled from the shapely linear-referencing pair
`exterior.project(point)` followed by `exterior.interpolate(t)` used by
`shift_point`: their composition is the point of the ring polyline nearest
to `point` (the first nearest edge wins on ties); a degenerate ring with
fewer than two vertices answers the point itself. -/
noncomputable def nearestOnRing (ring : List PtR) (p : PtR) : PtR :=
  match (ring.zip ring.tail).foldl
      (fun best e =>
        let c := segProjR p e.1 e.2
        match best with
        | none => some c
        | some b => if dSqR p c < dSqR p b then some c else best) none with
  | some c => c
  | none => p

/-- Embedding of `shift_point` (mission_handler.py, lines 312-337): take
the `shift_by_neighbor` candidate; if it is not valid against the polygon,
project the point onto the exterior ring of the outward buffer polygon
`poly_offset`; if that is still invalid, nudge it by the fixed epsilon
`(+0.1, +0.1)`.  (The source's `candidate is None` test can never fire —
`shift_by_neighbor` always returns a point.) -/
noncomputable def shift_point (point : PtR) (idx : ℕ) (points : List PtR)
    (poly : ShapelyPolygon) (base_offset : ℝ) (poly_offset : ShapelyPolygon) : PtR :=
  let candidate := shift_by_neighbor point idx points poly base_offset
  if is_valid candidate poly then candidate
  else
    let c := nearestOnRing poly_offset.ring point
    if is_valid c poly then c
    else (c.1 + 1/10, c.2 + 1/10)

/-- C5: `shift_point` is total — for every input it returns a point, and the
returned point is exactly one of: the `shift_by_neighbor` candidate when
that candidate is valid against the polygon; otherwise the projection of
the point onto the exterior ring of the outward-buffered polygon; and when
that projection is itself invalid, the same projection nudged by the fixed
epsilon `(+0.1, +0.1)`.  No case aborts. -/
theorem shift_point_fallback_chain (point : PtR) (idx : ℕ) (points : List PtR)
    (poly : ShapelyPolygon) (base_offset : ℝ) (poly_offset : ShapelyPolygon) :
    (is_valid (shift_by_neighbor point idx points poly base_offset) poly = true ∧
      shift_point point idx points poly base_offset poly_offset =
        shift_by_neighbor point idx points poly base_offset) ∨
    (is_valid (shift_by_neighbor point idx points poly base_offset) poly = false ∧
      is_valid (nearestOnRing poly_offset.ring point) poly = true ∧
      shift_point point idx points poly base_offset poly_offset =
        nearestOnRing poly_offset.ring point) ∨
    (is_valid (shift_by_neighbor point idx points poly base_offset) poly = false ∧
      is_valid (nearestOnRing poly_offset.ring point) poly = false ∧
      shift_point point idx points poly base_offset poly_offset =
        ((nearestOnRing poly_offset.ring point).1 + 1/10,
         (nearestOnRing poly_offset.ring point).2 + 1/10)) := by
  by_cases h1 : is_valid (shift_by_neighbor point idx points poly base_offset) poly = true
  · left
    exact ⟨h1, by rw [shift_point, if_pos h1]⟩
  · have h1f : is_valid (shift_by_neighbor point idx points poly base_offset) poly = false :=
      Bool.eq_false_iff.mpr h1
    by_cases h2 : is_valid (nearestOnRing poly_offset.ring point) poly = true
    · right; left
      refine ⟨h1f, h2, ?_⟩
      rw [shift_point, if_neg h1]
      rw [if_pos h2]
    · right; right
      have h2f : is_valid (nearestOnRing poly_offset.ring point) poly = false :=
        Bool.eq_false_iff.mpr h2
      refine ⟨h1f, h2f, ?_⟩
      rw [shift_point, if_neg h1]
      rw [if_neg h2]

/-- A no-fly polygon as the safe-offset path sees it: the projected (UTM)
exterior-ring coordinates that `_project_to_nearest_polygon` iterates
pairwise, plus shapely's containment predicate `poly.contains`, abstracted
as a record field over the real plane (the displaced candidate it is
applied to contains square roots). -/
structure UtmPolygon where
  ring : List Pt
  containsB : PtR → Bool

/-- Embedding of `MissionManager._point_to_segment_projection`
(mission_handler.py, lines 654-672): clamped projection of `p` onto the
segment `(a, b)`.  The source returns the projection together with the
true distance `|p - proj|`; the caller only ever compares these distances,
so the squared distance is carried instead (an equivalent comparison, both
sides being nonnegative); `np.allclose(ab, 0)` is exact zero over ℚ. -/
def point_to_segment_projection (p a b : Pt) : Pt × ℚ :=
  let ab := subP b a
  if ab = (0, 0) then (a, dSq p a)
  else
    let t0 := dotQ (subP p a) ab / dotQ ab ab
    let t := max 0 (min 1 t0)
    let proj := (a.1 + t * ab.1, a.2 + t * ab.2)
    (proj, dSq p proj)

/-- Edge scan of one polygon in `_project_to_nearest_polygon`
(mission_handler.py, lines 645-649): starting from `best_dist = inf`, a
candidate is accepted exactly when its distance is strictly smaller than
the best so far, so the first minimum encountered wins. -/
def projFold (p : Pt) (poly : UtmPolygon) (best : Option (Pt × UtmPolygon × ℚ)) :
    Option (Pt × UtmPolygon × ℚ) :=
  (poly.ring.zip poly.ring.tail).foldl
    (fun b e =>
      let r := point_to_segment_projection p e.1 e.2
      match b with
      | none => some (r.1, poly, r.2)
      | some (_, _, bd) => if r.2 < bd then some (r.1, poly, r.2) else b)
    best

/-- Embedding of `MissionManager._project_to_nearest_polygon`
(mission_handler.py, lines 632-652): globally nearest edge projection over
all edges of all polygons, `none` when there is no edge at all. -/
def project_to_nearest_polygon (polys : List UtmPolygon) (p : Pt) :
    Option (Pt × UtmPolygon) :=
  (polys.foldl (fun b poly => projFold p poly b) none).map (fun r => (r.1, r.2.1))

/-- The outward unit vector of `_compute_safe_offset`: from the nearest
edge projection toward the point, `v / |v|`. -/
noncomputable def safeUnit (ptUtm proj : Pt) : PtR :=
  let v : PtR := (((ptUtm.1 - proj.1 : ℚ) : ℝ), ((ptUtm.2 - proj.2 : ℚ) : ℝ))
  (v.1 / normR v, v.2 / normR v)

/-- The unreversed safe-offset candidate of `_compute_safe_offset`:
the projection displaced `offset` meters along the outward unit vector. -/
noncomputable def safeCandidate (off : ℝ) (ptUtm proj : Pt) : PtR :=
  ((proj.1 : ℝ) + off * (safeUnit ptUtm proj).1,
   (proj.2 : ℝ) + off * (safeUnit ptUtm proj).2)

/-- Embedding of `MissionManager._compute_safe_offset` (mission_handler.py,
lines 599-627), taken at the UTM-projected point (the pyproj WGS↔UTM
conversions wrapping the geometry are an external collaborator of the
core and are elided): project to the nearest polygon edge, displace
`offset` meters along the outward unit vector, and reverse the
displacement when the candidate falls inside the polygon.  The source's
`norm == 0` early return is the exact-arithmetic test `ptUtm = proj`. -/
noncomputable def compute_safe_offset (polys : List UtmPolygon) (off : ℝ) (ptUtm : Pt) :
    PtR :=
  match project_to_nearest_polygon polys ptUtm with
  | none => ((ptUtm.1 : ℝ), (ptUtm.2 : ℝ))
  | some (proj, poly) =>
    if ptUtm = proj then ((ptUtm.1 : ℝ), (ptUtm.2 : ℝ))
    else
      if poly.containsB (safeCandidate off ptUtm proj) then
        ((proj.1 : ℝ) - off * (safeUnit ptUtm proj).1,
         (proj.2 : ℝ) - off * (safeUnit ptUtm proj).2)
      else safeCandidate off ptUtm proj

lemma cast_sub_ne_or (ptUtm proj : Pt) (hne : ptUtm ≠ proj) :
    ((ptUtm.1 - proj.1 : ℚ) : ℝ) ≠ 0 ∨ ((ptUtm.2 - proj.2 : ℚ) : ℝ) ≠ 0 := by
  by_contra hcon
  push_neg at hcon
  obtain ⟨h1, h2⟩ := hcon
  have e1 : ptUtm.1 - proj.1 = 0 := by exact_mod_cast h1
  have e2 : ptUtm.2 - proj.2 = 0 := by exact_mod_cast h2
  exact hne (Prod.ext (sub_eq_zero.mp e1) (sub_eq_zero.mp e2))

lemma safeUnit_norm_sq (ptUtm proj : Pt) (hne : ptUtm ≠ proj) :
    (safeUnit ptUtm proj).1 ^ 2 + (safeUnit ptUtm proj).2 ^ 2 = 1 := by
  have hs : 0 < ((ptUtm.1 - proj.1 : ℚ) : ℝ) ^ 2 + ((ptUtm.2 - proj.2 : ℚ) : ℝ) ^ 2 := by
    rcases cast_sub_ne_or ptUtm proj hne with h | h
    · positivity
    · positivity
  have hsq : Real.sqrt (((ptUtm.1 - proj.1 : ℚ) : ℝ) ^ 2 + ((ptUtm.2 - proj.2 : ℚ) : ℝ) ^ 2) ^ 2
      = ((ptUtm.1 - proj.1 : ℚ) : ℝ) ^ 2 + ((ptUtm.2 - proj.2 : ℚ) : ℝ) ^ 2 :=
    Real.sq_sqrt hs.le
  have hsp : Real.sqrt (((ptUtm.1 - proj.1 : ℚ) : ℝ) ^ 2 + ((ptUtm.2 - proj.2 : ℚ) : ℝ) ^ 2) ≠ 0 := by
    have := Real.sqrt_pos.mpr hs
    linarith
  show (((ptUtm.1 - proj.1 : ℚ) : ℝ) / normR _) ^ 2 + (((ptUtm.2 - proj.2 : ℚ) : ℝ) / normR _) ^ 2 = 1
  rw [normR]
  have hquot : (((ptUtm.1 - proj.1 : ℚ) : ℝ) /
        Real.sqrt (((ptUtm.1 - proj.1 : ℚ) : ℝ) ^ 2 + ((ptUtm.2 - proj.2 : ℚ) : ℝ) ^ 2)) ^ 2 +
      (((ptUtm.2 - proj.2 : ℚ) : ℝ) /
        Real.sqrt (((ptUtm.1 - proj.1 : ℚ) : ℝ) ^ 2 + ((ptUtm.2 - proj.2 : ℚ) : ℝ) ^ 2)) ^ 2 =
      (((ptUtm.1 - proj.1 : ℚ) : ℝ) ^ 2 + ((ptUtm.2 - proj.2 : ℚ) : ℝ) ^ 2) /
        Real.sqrt (((ptUtm.1 - proj.1 : ℚ) : ℝ) ^ 2 + ((ptUtm.2 - proj.2 : ℚ) : ℝ) ^ 2) ^ 2 := by
    ring
  rw [hquot, hsq, div_self (ne_of_gt hs)]

/-- Euclidean distance on the real plane (used to state that the
safe-offset result lies exactly `offset` meters from the projection). -/
noncomputable def distR (a b : PtR) : ℝ := Real.sqrt ((a.1 - b.1) ^ 2 + (a.2 - b.2) ^ 2)

lemma distR_offset (px py off u1 u2 : ℝ) (hoff : 0 ≤ off) (hu : u1 ^ 2 + u2 ^ 2 = 1) :
    distR (px + off * u1, py + off * u2) (px, py) = off := by
  have h1 : (px + off * u1 - px) ^ 2 + (py + off * u2 - py) ^ 2 = off ^ 2 := by
    have h2 : (px + off * u1 - px) ^ 2 + (py + off * u2 - py) ^ 2 =
        off ^ 2 * (u1 ^ 2 + u2 ^ 2) := by ring
    rw [h2, hu, mul_one]
  show Real.sqrt ((px + off * u1 - px) ^ 2 + (py + off * u2 - py) ^ 2) = off
  rw [h1, Real.sqrt_sq hoff]

/-- Conclusion of claim C7 at nearest-edge projection `proj` on polygon
`poly`: the safe-offset result lies exactly `off` meters from the
projection; it is the unreversed candidate — on the ray from the
projection toward the point — when that candidate is outside the polygon,
and the reversed displacement — on the opposite ray — when the candidate
falls inside. -/
def SafeOffsetSpec (polys : List UtmPolygon) (off : ℝ) (ptUtm proj : Pt)
    (poly : UtmPolygon) : Prop :=
  distR (compute_safe_offset polys off ptUtm) ((proj.1 : ℝ), (proj.2 : ℝ)) = off ∧
  (poly.containsB (safeCandidate off ptUtm proj) = false →
    compute_safe_offset polys off ptUtm = safeCandidate off ptUtm proj ∧
    ∃ t : ℝ, 0 ≤ t ∧ compute_safe_offset polys off ptUtm =
      ((proj.1 : ℝ) + t * ((ptUtm.1 - proj.1 : ℚ) : ℝ),
       (proj.2 : ℝ) + t * ((ptUtm.2 - proj.2 : ℚ) : ℝ))) ∧
  (poly.containsB (safeCandidate off ptUtm proj) = true →
    compute_safe_offset polys off ptUtm =
      ((proj.1 : ℝ) - off * (safeUnit ptUtm proj).1,
       (proj.2 : ℝ) - off * (safeUnit ptUtm proj).2) ∧
    ∃ t : ℝ, t ≤ 0 ∧ compute_safe_offset polys off ptUtm =
      ((proj.1 : ℝ) + t * ((ptUtm.1 - proj.1 : ℚ) : ℝ),
       (proj.2 : ℝ) + t * ((ptUtm.2 - proj.2 : ℚ) : ℝ)))

/-- C7: for every point at nonzero distance from its globally nearest
polygon-edge projection (as computed by `_project_to_nearest_polygon`),
with a nonnegative offset, `_compute_safe_offset` returns the point at
distance exactly `off` from the projection along the unit vector from the
projection toward the point; and when that candidate lies inside the
polygon the vector is reversed, putting the result at distance `off` on
the opposite side of the projection. -/
theorem compute_safe_offset_spec (polys : List UtmPolygon) (off : ℝ) (ptUtm proj : Pt)
    (poly : UtmPolygon)
    (hp : project_to_nearest_polygon polys ptUtm = some (proj, poly))
    (hne : ptUtm ≠ proj) (hoff : 0 ≤ off) :
    SafeOffsetSpec polys off ptUtm proj poly := by
  have hu : (safeUnit ptUtm proj).1 ^ 2 + (safeUnit ptUtm proj).2 ^ 2 = 1 :=
    safeUnit_norm_sq ptUtm proj hne
  have hu1 : (safeUnit ptUtm proj).1 =
      ((ptUtm.1 - proj.1 : ℚ) : ℝ) /
        Real.sqrt (((ptUtm.1 - proj.1 : ℚ) : ℝ) ^ 2 + ((ptUtm.2 - proj.2 : ℚ) : ℝ) ^ 2) := rfl
  have hu2 : (safeUnit ptUtm proj).2 =
      ((ptUtm.2 - proj.2 : ℚ) : ℝ) /
        Real.sqrt (((ptUtm.1 - proj.1 : ℚ) : ℝ) ^ 2 + ((ptUtm.2 - proj.2 : ℚ) : ℝ) ^ 2) := rfl
  have hcso : compute_safe_offset polys off ptUtm =
      if poly.containsB (safeCandidate off ptUtm proj) then
        ((proj.1 : ℝ) - off * (safeUnit ptUtm proj).1,
         (proj.2 : ℝ) - off * (safeUnit ptUtm proj).2)
      else safeCandidate off ptUtm proj := by
    simp only [compute_safe_offset, hp]
    rw [if_neg hne]
  by_cases hc : poly.containsB (safeCandidate off ptUtm proj) = true
  · rw [if_pos hc] at hcso
    have hrev : ((proj.1 : ℝ) - off * (safeUnit ptUtm proj).1,
        (proj.2 : ℝ) - off * (safeUnit ptUtm proj).2) =
        ((proj.1 : ℝ) + off * -(safeUnit ptUtm proj).1,
         (proj.2 : ℝ) + off * -(safeUnit ptUtm proj).2) := by
      rw [Prod.mk.injEq]
      constructor <;> ring
    have hu' : (-(safeUnit ptUtm proj).1) ^ 2 + (-(safeUnit ptUtm proj).2) ^ 2 = 1 := by
      rw [neg_sq, neg_sq]
      exact hu
    refine ⟨?_, ?_, ?_⟩
    · rw [hcso, hrev]
      exact distR_offset _ _ _ _ _ hoff hu'
    · intro hf
      rw [hf] at hc
      simp at hc
    · intro _
      refine ⟨hcso, ?_⟩
      refine ⟨-(off / Real.sqrt (((ptUtm.1 - proj.1 : ℚ) : ℝ) ^ 2 +
          ((ptUtm.2 - proj.2 : ℚ) : ℝ) ^ 2)), ?_, ?_⟩
      · have hnn : 0 ≤ off / Real.sqrt (((ptUtm.1 - proj.1 : ℚ) : ℝ) ^ 2 +
            ((ptUtm.2 - proj.2 : ℚ) : ℝ) ^ 2) :=
          div_nonneg hoff (Real.sqrt_nonneg _)
        linarith
      · rw [hcso, hu1, hu2, Prod.mk.injEq]
        constructor <;> ring
  · have hcf : poly.containsB (safeCandidate off ptUtm proj) = false :=
      Bool.eq_false_iff.mpr hc
    rw [hcf] at hcso
    rw [if_neg (by simp)] at hcso
    refine ⟨?_, ?_, ?_⟩
    · rw [hcso]
      show distR ((proj.1 : ℝ) + off * (safeUnit ptUtm proj).1,
          (proj.2 : ℝ) + off * (safeUnit ptUtm proj).2) ((proj.1 : ℝ), (proj.2 : ℝ)) = off
      exact distR_offset _ _ _ _ _ hoff hu
    · intro _
      refine ⟨hcso, ?_⟩
      refine ⟨off / Real.sqrt (((ptUtm.1 - proj.1 : ℚ) : ℝ) ^ 2 +
          ((ptUtm.2 - proj.2 : ℚ) : ℝ) ^ 2),
        div_nonneg hoff (Real.sqrt_nonneg _), ?_⟩
      rw [hcso]
      show ((proj.1 : ℝ) + off * (safeUnit ptUtm proj).1,
          (proj.2 : ℝ) + off * (safeUnit ptUtm proj).2) = _
      rw [hu1, hu2, Prod.mk.injEq]
      constructor <;> ring
    · intro hctr
      rw [hctr] at hcf
      simp at hcf

/-- Concrete no-fly square used to witness C7; the containment predicate
answers false everywhere (the displaced candidate in the witness lies far
outside the square). -/
def sqPoly : UtmPolygon :=
  { ring := [(0, 0), (10, 0), (10, 10), (0, 10), (0, 0)], containsB := fun _ => false }

/-- Witness for C7: the point `(5, -3)` projects onto the bottom edge of
the square at `(5, 0)`, 3 m away, and the safe offset with `off = 3`
satisfies the full specification there. -/
theorem compute_safe_offset_spec_witness :
    project_to_nearest_polygon [sqPoly] (5, -3) = some ((5, 0), sqPoly) ∧
    ((5, -3) : Pt) ≠ ((5, 0) : Pt) ∧ (0 : ℝ) ≤ 3 ∧
    SafeOffsetSpec [sqPoly] 3 (5, -3) (5, 0) sqPoly := by
  have hp : project_to_nearest_polygon [sqPoly] (5, -3) = some ((5, 0), sqPoly) := by
    norm_num [project_to_nearest_polygon, projFold, point_to_segment_projection,
      sqPoly, dSq, dotQ, subP, min_def, max_def, List.zip]
  have hne : ((5, -3) : Pt) ≠ ((5, 0) : Pt) := by
    intro hcon
    rw [Prod.mk.injEq] at hcon
    exact absurd hcon.2 (by norm_num)
  exact ⟨hp, hne, by norm_num,
    compute_safe_offset_spec [sqPoly] 3 (5, -3) (5, 0) sqPoly hp hne (by norm_num)⟩
